import Mathlib

/-!
# basic-csv: the table editor of `src/lib/basic-csv.js` and the opener of `src/lib/main.js`

A shallow embedding of the non-DOM part of `TableEditor`: file parsing (`loadFile`),
serialisation (`serializeData`), the undo/redo history (`snapshot`, `undo`, `redo`), the
editing actions (`insertRow`, `insertColumn`, the `input` listener installed by `render`)
and the choice of the delimiter (constructor and opener).

Modelling conventions.
* A JavaScript string is a sequence of code units; it is modelled as `List Char`.  The
  code only ever compares code units with the line feed, the carriage return, the
  delimiter, the dot and the slash.
* A JavaScript array is modelled as a `List` in array order: `push` appends at the end,
  `pop` removes the last element.
* `this.element` and `render` only build DOM nodes from `this.data`; they are not part of
  the state modelled here.
-/

namespace BasicCsv

/-- A JavaScript string. -/
abbrev Str := List Char

/-- The value of `this.data`: an array of rows, each an array of string cells. -/
abbrev Grid := List (List Str)

/-! ## String primitives used by the source -/

/-- Put a code unit in front of the first piece of a split. -/
def pushFront (c : Char) : List Str → List Str
  | [] => [[c]]
  | piece :: pieces => (c :: piece) :: pieces

/-- The call `s.split(sep)` for a separator `sep` of one code unit: the pieces of `s` between
the occurrences of `sep` (always at least one piece). -/
def split (sep : Char) : Str → List Str
  | [] => [[]]
  | c :: rest => if c = sep then [] :: split sep rest else pushFront c (split sep rest)

/-- The call `text.split(/\r?\n/)`.  Scanning from the left, the regular expression matches
at a position holding a carriage return directly followed by a line feed (two code units) or
at a position holding a line feed (one code unit); the text before the match is a piece and
scanning resumes after the match. -/
def splitLines : Str → List Str
  | [] => [[]]
  | c :: rest =>
    if c = '\n' then [] :: splitLines rest
    else
      match rest with
      | c2 :: rest2 =>
        if c = '\r' ∧ c2 = '\n' then [] :: splitLines rest2
        else pushFront c (splitLines (c2 :: rest2))
      | [] => [[c]]

/-- The call `xs.join(sep)`. -/
def join (sep : Str) : List Str → Str
  | [] => []
  | [x] => x
  | x :: y :: rest => x ++ sep ++ join sep (y :: rest)

/-- The call `String(cell).replace(/\n/g, ' ')`. -/
def replaceNewlines (cell : Str) : Str :=
  cell.map (fun c => if c = '\n' then ' ' else c)

/-- The call `s.endsWith(suffix)`. -/
def endsWith (s suffix : Str) : Bool :=
  suffix.isSuffixOf s

/-! ## Parsing and serialising -/

/-- The grid computed by `loadFile` from the text of the file:
`text.split(/\r?\n/).filter(line => line.length > 0).map(line => line.split(delimiter))`. -/
def parse (text : Str) (delimiter : Char) : Grid :=
  ((splitLines text).filter (fun line => decide (line.length > 0))).map
    (fun line => split delimiter line)

/-- The string computed by `serializeData` from a grid. -/
def serializeGrid (data : Grid) (delimiter : Char) : Str :=
  join ['\n'] (data.map (fun row => join [delimiter] (row.map replaceNewlines)))

/-- The last cell of the row ends in a carriage return. -/
def endsInCR (row : List Str) : Bool :=
  match row.getLast? with
  | some cell => cell.getLast? == some '\r'
  | none => false

/-! ## Editor state -/

/-- A stored history entry.  The source stores `JSON.stringify(this.data)` and reads it back
with `JSON.parse`; for an array of arrays of strings the pair of built-ins returns a fresh
structurally equal value, and no reference is shared with the live grid.  The entry is
modelled by the grid value it encodes. -/
structure Snapshot where
  grid : Grid
  deriving DecidableEq

/-- The built-in `JSON.stringify` on a grid. -/
def JSON_stringify (data : Grid) : Snapshot := ⟨data⟩

/-- The built-in `JSON.parse` on a history entry. -/
def JSON_parse (s : Snapshot) : Grid := s.grid

/-- The fields of a `TableEditor` other than the DOM element. -/
structure TableEditor where
  filePath : Str
  delimiter : Char
  modified : Bool
  hasHeader : Bool
  undoStack : List Snapshot
  redoStack : List Snapshot
  data : Grid
  isLarge : Bool
  deriving DecidableEq

def MAX_FILE_SIZE : Nat := 5 * 1024 * 1024

def MAX_RENDER_ROWS : Nat := 1000

namespace TableEditor

/-- The method `setModified(state)`. -/
def setModified (e : TableEditor) (state : Bool) : TableEditor :=
  { e with modified := state }

/-- The method `loadFile`, given the text read from the file. -/
def loadFile (e : TableEditor) (text : Str) : TableEditor :=
  let data := parse text e.delimiter
  { e with data := data, isLarge := decide (data.length > MAX_RENDER_ROWS) }

/-- The constructor, given the size of the file and the text read from it.  The delimiter and
the history are set before the size check; above the limit the constructor returns without
loading, and the grid (never assigned in the source) is left empty here. -/
def new (filePath : Str) (size : Nat) (text : Str) : TableEditor :=
  let e : TableEditor :=
    { filePath := filePath
      delimiter := if endsWith filePath ['.', 't', 's', 'v'] then '\t' else ','
      modified := false
      hasHeader := false
      undoStack := []
      redoStack := []
      data := []
      isLarge := false }
  if size > MAX_FILE_SIZE then e else e.loadFile text

/-- The method `serializeData`. -/
def serializeData (e : TableEditor) : Str :=
  serializeGrid e.data e.delimiter

/-- The method `save`: the text written to the file and the state afterwards. -/
def save (e : TableEditor) : Str × TableEditor :=
  (e.serializeData, e.setModified false)

/-- The method `snapshot`. -/
def snapshot (e : TableEditor) : TableEditor :=
  { e with undoStack := e.undoStack ++ [JSON_stringify e.data], redoStack := [] }

/-- The method `undo`. -/
def undo (e : TableEditor) : TableEditor :=
  match e.undoStack.getLast? with
  | none => e
  | some top =>
    { e with
      redoStack := e.redoStack ++ [JSON_stringify e.data]
      undoStack := e.undoStack.dropLast
      data := JSON_parse top
      modified := true }

/-- The method `redo`. -/
def redo (e : TableEditor) : TableEditor :=
  match e.redoStack.getLast? with
  | none => e
  | some top =>
    { e with
      undoStack := e.undoStack ++ [JSON_stringify e.data]
      redoStack := e.redoStack.dropLast
      data := JSON_parse top
      modified := true }

/-- The expression `this.data[0]?.length || 1` of `insertRow`: the length of the first row,
and `1` when there is no first row or when that length is `0`. -/
def insertRowCols (data : Grid) : Nat :=
  match data.head? with
  | none => 1
  | some row => if row.length = 0 then 1 else row.length

/-- The method `insertRow`. -/
def insertRow (e : TableEditor) : TableEditor :=
  let e1 := e.snapshot
  let cols := insertRowCols e1.data
  { e1 with data := e1.data ++ [List.replicate cols []], modified := true }

/-- The method `insertColumn`. -/
def insertColumn (e : TableEditor) : TableEditor :=
  let e1 := e.snapshot
  { e1 with data := e1.data.map (fun row => row ++ [[]]), modified := true }

/-- The method `toggleHeader`. -/
def toggleHeader (e : TableEditor) : TableEditor :=
  { e with hasHeader := !e.hasHeader }

/-- The `focus` listener that `render` puts on every cell. -/
def onFocus (e : TableEditor) : TableEditor :=
  e.snapshot

/-- The `input` listener that `render` puts on the cell at row `r`, column `c`:
`this.data[r][c] = td.textContent; this.setModified(true)`.  `render` installs it only for
cells that exist and every action that changes the shape of the grid renders again, so the
listener runs with `r` and `c` in range; outside that range the model leaves the grid as
it is. -/
def onInput (e : TableEditor) (r c : Nat) (textContent : Str) : TableEditor :=
  { e with
    data := e.data.modify (fun row => row.set c textContent) r
    modified := true }

end TableEditor

/-! ## Edit sequences -/

/-- One undoable edit: focusing a cell and typing into cells of the rendered table (a
`focus` event followed by any number of `input` events), or one of the two insert actions. -/
inductive EditStep where
  | cellEdits (inputs : List (Nat × Nat × Str))
  | insertRow
  | insertColumn
  deriving DecidableEq

/-- The effect of one edit step. -/
def applyStep (e : TableEditor) : EditStep → TableEditor
  | .cellEdits inputs => inputs.foldl (fun st i => st.onInput i.1 i.2.1 i.2.2) e.onFocus
  | .insertRow => e.insertRow
  | .insertColumn => e.insertColumn

/-- The effect of a sequence of edit steps, performed from left to right. -/
def applySteps (e : TableEditor) (steps : List EditStep) : TableEditor :=
  steps.foldl applyStep e

/-- Calling `undo` `k` times. -/
def undoTimes (k : Nat) (e : TableEditor) : TableEditor :=
  Nat.iterate TableEditor.undo k e

/-! ## The opener of `main.js` -/

/-- The state of the scan in Node's `path.extname` (POSIX flavour). -/
structure ExtScan where
  startDot : Option Nat
  startPart : Nat
  endPos : Option Nat
  matchedSlash : Bool
  preDotState : Int
  stopped : Bool

/-- One iteration of the loop of `path.extname`, at index `i` holding the code unit `code`. -/
def extStep (st : ExtScan) (i : Nat) (code : Char) : ExtScan :=
  if st.stopped then st
  else if code = '/' then
    if !st.matchedSlash then { st with startPart := i + 1, stopped := true } else st
  else
    let st1 : ExtScan :=
      if st.endPos = none then { st with matchedSlash := false, endPos := some (i + 1) } else st
    if code = '.' then
      if st1.startDot = none then { st1 with startDot := some i }
      else if st1.preDotState ≠ 1 then { st1 with preDotState := 1 } else st1
    else if st1.startDot ≠ none then { st1 with preDotState := -1 }
    else st1

/-- The scan of `path.extname` over the indices `i = n - 1, ..., 0`, where `rev` holds the
code units at these indices in that order. -/
def extScan (st : ExtScan) : Str → ExtScan
  | [] => st
  | code :: rev => extScan (extStep st rev.length code) rev

/-- Node's built-in `path.extname` (POSIX flavour): the extension of the last component of
the path, from its last dot to its end, and the empty string when that component has no dot,
starts with its only dot, or is `..`. -/
def extname (path : Str) : Str :=
  let st := extScan ⟨none, 0, none, true, 0, false⟩ path.reverse
  match st.startDot, st.endPos with
  | some startDot, some endPos =>
    if st.preDotState = 0 ∨
        (st.preDotState = 1 ∧ startDot = endPos - 1 ∧ startDot = st.startPart + 1) then []
    else (path.take endPos).drop startDot
  | _, _ => []

/-- The built-in `toLowerCase`, on the letters of the ASCII range (other code units are left
as they are). -/
def toLowerCase (s : Str) : Str :=
  s.map Char.toLower

/-- The test of the opener registered by `activate`: the lower-cased extension of the URI is
`.csv` or `.tsv`. -/
def openerAccepts (uri : Str) : Bool :=
  let ext := toLowerCase (extname uri)
  decide (ext = ['.', 'c', 's', 'v'] ∨ ext = ['.', 't', 's', 'v'])

/-- The opener registered by `activate`: a new `TableEditor` for the URI when the extension
test succeeds, nothing otherwise. -/
def opener (uri : Str) (size : Nat) (text : Str) : Option TableEditor :=
  if openerAccepts uri then some (TableEditor.new uri size text) else none

/-! ## Splitting and joining: helper lemmas -/

theorem pushFront_ne_nil (c : Char) (l : List Str) : pushFront c l ≠ [] := by
  cases l <;> simp [pushFront]

theorem split_ne_nil (sep : Char) (s : Str) : split sep s ≠ [] := by
  cases s with
  | nil => simp [split]
  | cons c rest =>
    simp only [split]
    split
    · simp
    · exact pushFront_ne_nil _ _

theorem splitLines_ne_nil (s : Str) : splitLines s ≠ [] := by
  match s with
  | [] => simp [splitLines]
  | [c] =>
    simp only [splitLines]
    split <;> simp
  | c :: c2 :: rest =>
    simp only [splitLines]
    split
    · simp
    · split
      · simp
      · exact pushFront_ne_nil _ _

theorem join_pushFront (sep : Str) (c : Char) (l : List Str) (h : l ≠ []) :
    join sep (pushFront c l) = c :: join sep l := by
  match l, h with
  | [x], _ => simp [pushFront, join]
  | x :: y :: rest, _ => simp [pushFront, join]

theorem join_cons_of_ne_nil (sep : Str) (x : Str) (l : List Str) (h : l ≠ []) :
    join sep (x :: l) = x ++ sep ++ join sep l := by
  match l, h with
  | y :: rest, _ => simp [join]

/-- Joining the pieces of a split with the separator gives the string back. -/
theorem join_split (sep : Char) (s : Str) : join [sep] (split sep s) = s := by
  induction s with
  | nil => simp [split, join]
  | cons c rest ih =>
    simp only [split]
    split
    · next h =>
      rw [join_cons_of_ne_nil _ _ _ (split_ne_nil sep rest), ih]
      simp [h]
    · rw [join_pushFront _ _ _ (split_ne_nil sep rest), ih]

theorem split_of_not_mem (sep : Char) (s : Str) (h : sep ∉ s) : split sep s = [s] := by
  induction s with
  | nil => simp [split]
  | cons c rest ih =>
    simp only [List.mem_cons, not_or] at h
    have hc : c ≠ sep := fun hc => h.1 hc.symm
    simp [split, hc, ih h.2, pushFront]

theorem split_append_sep (sep : Char) (s rest : Str) (h : sep ∉ s) :
    split sep (s ++ sep :: rest) = s :: split sep rest := by
  induction s with
  | nil => simp [split]
  | cons c s ih =>
    simp only [List.mem_cons, not_or] at h
    have hc : c ≠ sep := fun hc => h.1 hc.symm
    simp [split, hc, ih h.2, pushFront]

/-- Splitting the join of cells that do not contain the separator gives the cells back. -/
theorem split_join (sep : Char) (cells : List Str) (hne : cells ≠ [])
    (h : ∀ cell ∈ cells, sep ∉ cell) : split sep (join [sep] cells) = cells := by
  induction cells with
  | nil => exact absurd rfl hne
  | cons x l ih =>
    cases l with
    | nil => simpa [join] using split_of_not_mem sep x (h x (by simp))
    | cons y rest =>
      have hx : sep ∉ x := h x (by simp)
      have ih2 := ih (by simp) (fun cell hcell => h cell (List.mem_cons_of_mem _ hcell))
      simp only [join, List.append_assoc, List.singleton_append]
      rw [split_append_sep sep x _ hx]
      simp only [join] at ih2
      rw [ih2]

theorem mem_of_mem_pushFront (c : Char) (l : List Str) (piece : Str) (a : Char)
    (hp : piece ∈ pushFront c l) (ha : a ∈ piece) : a = c ∨ ∃ q ∈ l, a ∈ q := by
  cases l with
  | nil =>
    simp only [pushFront, List.mem_singleton] at hp
    subst hp
    left
    simpa using ha
  | cons x xs =>
    simp only [pushFront, List.mem_cons] at hp
    rcases hp with hp | hp
    · subst hp
      simp only [List.mem_cons] at ha
      rcases ha with ha | ha
      · exact Or.inl ha
      · exact Or.inr ⟨x, by simp, ha⟩
    · exact Or.inr ⟨piece, by simp [hp], ha⟩

/-- Every code unit of a piece of a split occurs in the string that was split. -/
theorem mem_of_mem_split (sep : Char) (s : Str) (piece : Str) (a : Char)
    (hp : piece ∈ split sep s) (ha : a ∈ piece) : a ∈ s := by
  induction s generalizing piece with
  | nil =>
    simp only [split, List.mem_singleton] at hp
    subst hp
    exact ha
  | cons c rest ih =>
    simp only [split] at hp
    split at hp
    · simp only [List.mem_cons] at hp
      rcases hp with hp | hp
      · subst hp
        simp at ha
      · exact List.mem_cons_of_mem _ (ih piece hp ha)
    · rcases mem_of_mem_pushFront c _ piece a hp ha with h | ⟨q, hq, haq⟩
      · simp [h]
      · exact List.mem_cons_of_mem _ (ih q hq haq)

theorem splitLines_lf (rest : Str) : splitLines ('\n' :: rest) = [] :: splitLines rest := by
  cases rest <;> simp [splitLines]

theorem splitLines_crlf (rest : Str) :
    splitLines ('\r' :: '\n' :: rest) = [] :: splitLines rest := by
  simp [splitLines]

theorem splitLines_single (c : Char) (hc : c ≠ '\n') : splitLines [c] = [[c]] := by
  simp [splitLines, hc]

theorem splitLines_other (c c2 : Char) (rest : Str) (hc : c ≠ '\n')
    (h : ¬ (c = '\r' ∧ c2 = '\n')) :
    splitLines (c :: c2 :: rest) = pushFront c (splitLines (c2 :: rest)) := by
  simp only [splitLines, hc, if_false, h]

/-- No piece of `text.split(/\r?\n/)` contains a line feed. -/
theorem not_mem_of_mem_splitLines : ∀ (s : Str), ∀ piece ∈ splitLines s, '\n' ∉ piece
  | [] => by simp [splitLines]
  | [c] => by
    intro piece hp
    by_cases hc : c = '\n'
    · subst hc
      have h2 : piece = [] := by simpa [splitLines_lf, splitLines] using hp
      subst h2
      simp
    · rw [splitLines_single c hc, List.mem_singleton] at hp
      subst hp
      simpa using fun h => hc h.symm
  | c :: c2 :: rest => by
    intro piece hp
    by_cases hc : c = '\n'
    · subst hc
      rw [splitLines_lf, List.mem_cons] at hp
      rcases hp with hp | hp
      · subst hp
        simp
      · exact not_mem_of_mem_splitLines (c2 :: rest) piece hp
    · by_cases h : c = '\r' ∧ c2 = '\n'
      · obtain ⟨h1, h2⟩ := h
        subst h1 h2
        rw [splitLines_crlf, List.mem_cons] at hp
        rcases hp with hp | hp
        · subst hp
          simp
        · exact not_mem_of_mem_splitLines rest piece hp
      · rw [splitLines_other c c2 rest hc h] at hp
        intro hmem
        rcases mem_of_mem_pushFront c _ piece '\n' hp hmem with h3 | ⟨q, hq, hnq⟩
        · exact hc h3.symm
        · exact not_mem_of_mem_splitLines (c2 :: rest) q hq hnq

/-- A line without line feed that does not end in a carriage return, followed by a line feed,
is cut off as one piece. -/
theorem splitLines_append_lf : ∀ (l rest : Str), '\n' ∉ l → l.getLast? ≠ some '\r' →
    splitLines (l ++ '\n' :: rest) = l :: splitLines rest
  | [], rest, _, _ => by simp [splitLines_lf]
  | [c], rest, hn, hr => by
    have hc : c ≠ '\n' := fun h => hn (by simp [h])
    have hc2 : c ≠ '\r' := by simpa using hr
    have : ¬ (c = '\r' ∧ '\n' = '\n') := fun h => hc2 h.1
    simp only [List.singleton_append]
    rw [splitLines_other c '\n' rest hc this, splitLines_lf]
    rfl
  | c :: c2 :: l, rest, hn, hr => by
    have hc : c ≠ '\n' := fun h => hn (by simp [h])
    have hc2 : c2 ≠ '\n' := fun h => hn (by simp [h])
    have : ¬ (c = '\r' ∧ c2 = '\n') := fun h => hc2 h.2
    have hn2 : '\n' ∉ c2 :: l := fun h => hn (List.mem_cons_of_mem _ h)
    have hr2 : (c2 :: l).getLast? ≠ some '\r' := by
      simpa [List.getLast?_cons_cons] using hr
    simp only [List.cons_append]
    rw [splitLines_other c c2 _ hc this]
    have ih := splitLines_append_lf (c2 :: l) rest hn2 hr2
    simp only [List.cons_append] at ih
    rw [ih]
    rfl

/-- A string without line feed is a single piece. -/
theorem splitLines_of_not_mem : ∀ (l : Str), '\n' ∉ l → splitLines l = [l]
  | [], _ => by simp [splitLines]
  | [c], hn => splitLines_single c (fun h => hn (by simp [h]))
  | c :: c2 :: l, hn => by
    have hc : c ≠ '\n' := fun h => hn (by simp [h])
    have hc2 : c2 ≠ '\n' := fun h => hn (by simp [h])
    have : ¬ (c = '\r' ∧ c2 = '\n') := fun h => hc2 h.2
    have hn2 : '\n' ∉ c2 :: l := fun h => hn (List.mem_cons_of_mem _ h)
    rw [splitLines_other c c2 _ hc this, splitLines_of_not_mem (c2 :: l) hn2]
    rfl

/-- Splitting the join of lines: the lines come back when none contains a line feed and none
but the last ends in a carriage return. -/
theorem splitLines_join (lines : List Str) (hne : lines ≠ [])
    (hn : ∀ l ∈ lines, '\n' ∉ l) (hr : ∀ l ∈ lines.dropLast, l.getLast? ≠ some '\r') :
    splitLines (join ['\n'] lines) = lines := by
  induction lines with
  | nil => exact absurd rfl hne
  | cons x rest ih =>
    cases rest with
    | nil => simpa [join] using splitLines_of_not_mem x (hn x (by simp))
    | cons y rest =>
      have ih2 := ih (by simp) (fun l hl => hn l (List.mem_cons_of_mem _ hl))
        (fun l hl => hr l (by simp only [List.dropLast_cons₂]; exact List.mem_cons_of_mem _ hl))
      have hx : x.getLast? ≠ some '\r' := hr x (by simp)
      simp only [join, List.append_assoc, List.singleton_append]
      rw [splitLines_append_lf x _ (hn x (by simp)) hx]
      simp only [join] at ih2
      rw [ih2]

/-- Without a carriage return directly followed by a line feed, `text.split(/\r?\n/)` cuts
exactly at the line feeds. -/
theorem splitLines_eq_split : ∀ (s : Str), ¬ (['\r', '\n'] <:+: s) → splitLines s = split '\n' s
  | [], _ => by simp [splitLines, split]
  | [c], _ => by
    by_cases hc : c = '\n'
    · subst hc
      simp [splitLines, split]
    · simp [splitLines, split, hc, pushFront]
  | c :: c2 :: rest, h => by
    have h2 : ¬ (['\r', '\n'] <:+: c2 :: rest) := by
      rintro ⟨a, b, hab⟩
      exact h ⟨c :: a, b, by simp [← hab]⟩
    have ih := splitLines_eq_split (c2 :: rest) h2
    by_cases hc : c = '\n'
    · subst hc
      rw [splitLines_lf, ih]
      simp [split]
    · have hcr : ¬ (c = '\r' ∧ c2 = '\n') := by
        rintro ⟨h1, h3⟩
        subst h1 h3
        exact h ⟨[], rest, by simp⟩
      rw [splitLines_other c c2 rest hc hcr, ih]
      simp [split, hc]

theorem replaceNewlines_of_not_mem (cell : Str) (h : '\n' ∉ cell) :
    replaceNewlines cell = cell := by
  induction cell with
  | nil => rfl
  | cons c rest ih =>
    simp only [List.mem_cons, not_or] at h
    have hc : c ≠ '\n' := fun hc => h.1 hc.symm
    have := ih h.2
    simp only [replaceNewlines] at this
    simp [replaceNewlines, hc, this]

/-- The line that `serializeData` builds from the cells of a split line is that line, when
the line contains no line feed. -/
theorem join_map_replaceNewlines_split (d : Char) (line : Str) (h : '\n' ∉ line) :
    join [d] ((split d line).map replaceNewlines) = line := by
  have hmap : (split d line).map replaceNewlines = split d line := by
    conv_rhs => rw [← List.map_id (split d line)]
    apply List.map_congr_left
    intro cell hcell
    exact replaceNewlines_of_not_mem cell (fun hn => h (mem_of_mem_split d line cell '\n' hcell hn))
  rw [hmap, join_split]

/-- The text that `serializeData` builds from a freshly parsed grid is the join of the
non-empty lines of the parsed text. -/
theorem serializeGrid_parse (text : Str) (d : Char) :
    serializeGrid (parse text d) d =
      join ['\n'] ((splitLines text).filter (fun line => decide (line.length > 0))) := by
  simp only [serializeGrid, parse, List.map_map]
  congr 1
  conv_rhs => rw [← List.map_id (List.filter _ _)]
  apply List.map_congr_left
  intro line hline
  have hmem := (List.mem_filter.mp hline).1
  simpa using join_map_replaceNewlines_split d line (not_mem_of_mem_splitLines text line hmem)

/-- The last code unit of a joined row is a carriage return only if the last cell ends in
one, for a separator other than the carriage return. -/
theorem getLast?_join (d : Char) (hd : d ≠ '\r') (cells : List Str)
    (h : (join [d] cells).getLast? = some '\r') :
    ∃ cell, cells.getLast? = some cell ∧ cell.getLast? = some '\r' := by
  induction cells with
  | nil => simp [join] at h
  | cons x rest ih =>
    cases rest with
    | nil => exact ⟨x, by simp, by simpa [join] using h⟩
    | cons y rest =>
      simp only [join, List.append_assoc, List.singleton_append] at h ih
      rw [List.getLast?_cons_cons]
      apply ih
      cases hj : (join [d] (y :: rest)) with
      | nil =>
        rw [hj] at h
        simp at h
        exact absurd h hd
      | cons a as =>
        rw [hj] at h
        simpa [List.getLast?_append, List.getLast?_cons_cons] using h

theorem mem_join (d : Char) (cells : List Str) (a : Char) (h : a ∈ join [d] cells) :
    a = d ∨ ∃ cell ∈ cells, a ∈ cell := by
  induction cells with
  | nil => simp [join] at h
  | cons x rest ih =>
    cases rest with
    | nil => exact Or.inr ⟨x, by simp, by simpa [join] using h⟩
    | cons y rest =>
      simp only [join, List.append_assoc, List.singleton_append, List.mem_append,
        List.mem_cons] at h
      rcases h with h | h | h
      · exact Or.inr ⟨x, by simp, h⟩
      · exact Or.inl h
      · rcases ih h with h2 | ⟨cell, hcell, hmem⟩
        · exact Or.inl h2
        · exact Or.inr ⟨cell, List.mem_cons_of_mem _ hcell, hmem⟩

theorem join_eq_nil (d : Char) (cells : List Str) (h : join [d] cells = []) :
    cells = [] ∨ cells = [[]] := by
  match cells, h with
  | [], _ => exact Or.inl rfl
  | [x], h => exact Or.inr (by simpa [join] using h)
  | x :: y :: rest, h => simp [join] at h

theorem filter_nonempty_eq_self (lines : List Str) (h : ∀ l ∈ lines, l ≠ []) :
    lines.filter (fun line => decide (line.length > 0)) = lines := by
  rw [List.filter_eq_self]
  intro l hl
  have := h l hl
  simpa [List.length_pos] using this

/-- Parsing the join of non-empty, line-feed-free lines of which none but the last ends in a
carriage return splits each of these lines. -/
theorem parse_join_lines (d : Char) (lines : List Str) (hne : ∀ l ∈ lines, l ≠ [])
    (hn : ∀ l ∈ lines, '\n' ∉ l) (hr : ∀ l ∈ lines.dropLast, l.getLast? ≠ some '\r') :
    parse (join ['\n'] lines) d = lines.map (fun line => split d line) := by
  by_cases hnil : lines = []
  · subst hnil
    simp [parse, join, splitLines]
  · rw [parse, splitLines_join lines hnil hn hr, filter_nonempty_eq_self lines hne]

/-! ## Parsing and serialising: the claims -/

/-- C1, counterexample.  The text `a\r\r\nb` parses to the grid `[["a\r"], ["b"]]`, none of
whose cells contains the delimiter or a line feed; its serialisation is `a\r\nb`, which parses
to `[["a"], ["b"]]`. -/
theorem reparse_not_stable_after_cr :
    parse ['a', '\r', '\r', '\n', 'b'] ',' = [[['a', '\r']], [['b']]] ∧
    (∀ row ∈ parse ['a', '\r', '\r', '\n', 'b'] ',', ∀ cell ∈ row, ',' ∉ cell ∧ '\n' ∉ cell) ∧
    serializeGrid (parse ['a', '\r', '\r', '\n', 'b'] ',') ',' = ['a', '\r', '\n', 'b'] ∧
    parse (serializeGrid (parse ['a', '\r', '\r', '\n', 'b'] ',') ',') ',' = [[['a']], [['b']]] ∧
    parse (serializeGrid (parse ['a', '\r', '\r', '\n', 'b'] ',') ',') ',' ≠
      parse ['a', '\r', '\r', '\n', 'b'] ',' := by
  decide

/-- C1, amended.  For a grid produced by `parse` in which no row other than the last has a
last cell ending in a carriage return, serialising and parsing again gives the same grid. -/
theorem reparse_stable (text : Str) (d : Char) (hd : d = ',' ∨ d = '\t')
    (hcr : ∀ row ∈ (parse text d).dropLast, endsInCR row = false) :
    parse (serializeGrid (parse text d) d) d = parse text d := by
  have hdr : d ≠ '\r' := by rcases hd with h | h <;> subst h <;> decide
  rw [serializeGrid_parse]
  have hmemL : ∀ l ∈ (splitLines text).filter (fun line => decide (line.length > 0)),
      l ∈ splitLines text ∧ l ≠ [] := by
    intro l hl
    have := List.mem_filter.mp hl
    exact ⟨this.1, by simpa [List.length_pos] using this.2⟩
  rw [parse_join_lines d _ (fun l hl => (hmemL l hl).2)
    (fun l hl => not_mem_of_mem_splitLines text l (hmemL l hl).1)]
  · rfl
  · intro l hl hlast
    have hrow : split d l ∈ (parse text d).dropLast := by
      rw [parse, ← List.map_dropLast]
      exact List.mem_map_of_mem _ hl
    have hfalse := hcr _ hrow
    have hj : (join [d] (split d l)).getLast? = some '\r' := by rw [join_split]; exact hlast
    obtain ⟨cell, hcell, hcellr⟩ := getLast?_join d hdr _ hj
    simp [endsInCR, hcell, hcellr] at hfalse

/-- Witness of C1 (amended) on the text `a,b\r\nc\r`, whose last line ends in a carriage
return. -/
theorem reparse_stable_witness :
    parse (serializeGrid (parse ['a', ',', 'b', '\r', '\n', 'c', '\r'] ',') ',') ',' =
      parse ['a', ',', 'b', '\r', '\n', 'c', '\r'] ',' :=
  reparse_stable ['a', ',', 'b', '\r', '\n', 'c', '\r'] ',' (Or.inl rfl) (by decide)

/-- C2. For a text without a carriage return directly followed by a line feed and without an
empty line, serialising the parsed grid gives the text back. -/
theorem serialize_parse_text (text : Str) (d : Char) (_hd : d = ',' ∨ d = '\t')
    (hcrlf : ¬ (['\r', '\n'] <:+: text)) (hlines : ∀ line ∈ split '\n' text, line ≠ []) :
    serializeGrid (parse text d) d = text := by
  rw [serializeGrid_parse, splitLines_eq_split text hcrlf,
    filter_nonempty_eq_self _ hlines, join_split]

/-- Witness of C2: the text `a,b\nc,d` parses to `[["a","b"],["c","d"]]` with the comma and
that grid serialises back to `a,b\nc,d`. -/
theorem serialize_parse_text_witness :
    parse ['a', ',', 'b', '\n', 'c', ',', 'd'] ',' = [[['a'], ['b']], [['c'], ['d']]] ∧
    serializeGrid [[['a'], ['b']], [['c'], ['d']]] ',' = ['a', ',', 'b', '\n', 'c', ',', 'd'] :=
  ⟨by decide,
   serialize_parse_text ['a', ',', 'b', '\n', 'c', ',', 'd'] ',' (Or.inl rfl) (by decide)
     (by decide)⟩

/-- C3, counterexample.  After loading the text `a` and calling `insertRow` the editor
holds the grid `[["a"], [""]]`, none of whose cells contains the delimiter, a line feed or
a carriage return; it is saved as `a\n`, which parses to `[["a"]]`. -/
theorem save_reopen_loses_blank_row :
    (TableEditor.new ['x', '.', 'c', 's', 'v'] 1 ['a']).insertRow.data = [[['a']], [[]]] ∧
    (∀ row ∈ (TableEditor.new ['x', '.', 'c', 's', 'v'] 1 ['a']).insertRow.data, ∀ cell ∈ row,
      ',' ∉ cell ∧ '\n' ∉ cell ∧ '\r' ∉ cell) ∧
    (TableEditor.new ['x', '.', 'c', 's', 'v'] 1 ['a']).insertRow.save.1 = ['a', '\n'] ∧
    parse (TableEditor.new ['x', '.', 'c', 's', 'v'] 1 ['a']).insertRow.save.1 ',' = [[['a']]] ∧
    parse (serializeGrid [[['a']], [[]]] ',') ',' ≠ [[['a']], [[]]] := by
  decide

/-- C3, amended.  For a grid in which every row has at least one cell, no row is a single
empty cell, and no cell contains the delimiter, a line feed or a carriage return, parsing the
serialised grid gives the grid back. -/
theorem parse_serialize_grid (data : Grid) (d : Char) (hd : d = ',' ∨ d = '\t')
    (hrows : ∀ row ∈ data, row ≠ [] ∧ row ≠ [[]])
    (hcells : ∀ row ∈ data, ∀ cell ∈ row, d ∉ cell ∧ '\n' ∉ cell ∧ '\r' ∉ cell) :
    parse (serializeGrid data d) d = data := by
  have hdr : d ≠ '\r' := by rcases hd with h | h <;> subst h <;> decide
  have hdn : d ≠ '\n' := by rcases hd with h | h <;> subst h <;> decide
  have hline : data.map (fun row => join [d] (row.map replaceNewlines)) =
      data.map (fun row => join [d] row) := by
    apply List.map_congr_left
    intro row hrow
    congr 1
    conv_rhs => rw [← List.map_id row]
    apply List.map_congr_left
    intro cell hcell
    exact replaceNewlines_of_not_mem cell (hcells row hrow cell hcell).2.1
  have hchar : ∀ l ∈ data.map (fun row => join [d] row), ∀ a ∈ l, a ≠ '\n' ∧ a ≠ '\r' := by
    intro l hl a ha
    obtain ⟨row, hrow, rfl⟩ := List.mem_map.mp hl
    rcases mem_join d row a ha with h | ⟨cell, hcell, hmem⟩
    · subst h
      exact ⟨hdn, hdr⟩
    · have := hcells row hrow cell hcell
      exact ⟨fun h => this.2.1 (h ▸ hmem), fun h => this.2.2 (h ▸ hmem)⟩
  rw [serializeGrid, hline, parse_join_lines d]
  · rw [List.map_map]
    conv_rhs => rw [← List.map_id data]
    apply List.map_congr_left
    intro row hrow
    exact split_join d row (hrows row hrow).1 (fun cell hcell => (hcells row hrow cell hcell).1)
  · intro l hl hnil
    obtain ⟨row, hrow, rfl⟩ := List.mem_map.mp hl
    rcases join_eq_nil d row hnil with h | h
    · exact (hrows row hrow).1 h
    · exact (hrows row hrow).2 h
  · intro l hl hmem
    exact (hchar l hl '\n' hmem).1 rfl
  · intro l hl hlast
    exact (hchar l (List.mem_of_mem_dropLast hl) '\r' (List.mem_of_getLast?_eq_some hlast)).2 rfl

/-- Witness of C3 (amended) on the grid `[["a", ""], ["", "b"]]`. -/
theorem parse_serialize_grid_witness :
    parse (serializeGrid [[['a'], []], [[], ['b']]] ',') ',' = [[['a'], []], [[], ['b']]] :=
  parse_serialize_grid [[['a'], []], [[], ['b']]] ',' (Or.inl rfl) (by decide) (by decide)

/-! ## Rows of the grids the editor builds have at least one cell -/

theorem parse_row_ne_nil (text : Str) (d : Char) : ∀ row ∈ parse text d, row ≠ [] := by
  intro row hrow
  obtain ⟨line, -, rfl⟩ := List.mem_map.mp hrow
  exact split_ne_nil d line

theorem insertRow_row_ne_nil (e : TableEditor) (h : ∀ row ∈ e.data, row ≠ []) :
    ∀ row ∈ e.insertRow.data, row ≠ [] := by
  intro row hrow
  simp only [TableEditor.insertRow, TableEditor.snapshot, List.mem_append,
    List.mem_singleton] at hrow
  rcases hrow with hrow | hrow
  · exact h row hrow
  · subst hrow
    have hpos : 0 < TableEditor.insertRowCols e.data := by
      unfold TableEditor.insertRowCols
      split
      · decide
      · split <;> omega
    intro hnil
    have := congrArg List.length hnil
    simp at this
    omega

theorem insertColumn_row_ne_nil (e : TableEditor) : ∀ row ∈ e.insertColumn.data, row ≠ [] := by
  intro row hrow
  simp only [TableEditor.insertColumn, TableEditor.snapshot, List.mem_map] at hrow
  obtain ⟨old, -, rfl⟩ := hrow
  simp

theorem onInput_row_ne_nil (e : TableEditor) (r c : Nat) (v : Str)
    (h : ∀ row ∈ e.data, row ≠ []) : ∀ row ∈ (e.onInput r c v).data, row ≠ [] := by
  intro row hrow hnil
  subst hnil
  have hlen : ∀ (g : Grid) (k : Nat), (∀ row ∈ g, row ≠ []) →
      ∀ row ∈ g.modify (fun row => row.set c v) k, row ≠ [] := by
    intro g
    induction g with
    | nil => intro k _ row hrow; cases k <;> simp [List.modify] at hrow
    | cons x xs ih =>
      intro k hg row hrow
      cases k with
      | zero =>
        simp only [List.modify, List.modifyTailIdx, List.modifyHead, List.mem_cons] at hrow
        rcases hrow with hrow | hrow
        · subst hrow
          intro hnil
          have := congrArg List.length hnil
          simp only [List.length_set, List.length_nil] at this
          exact hg x (by simp) (List.length_eq_zero.mp this)
        · exact hg row (List.mem_cons_of_mem _ hrow)
      | succ k =>
        simp only [List.modify, List.modifyTailIdx, List.mem_cons] at hrow
        rcases hrow with hrow | hrow
        · subst hrow
          exact hg _ (by simp)
        · exact ih k (fun row hr => hg row (List.mem_cons_of_mem _ hr)) row hrow
  exact hlen e.data r h [] hrow rfl

/-! ## History: helper lemmas -/

theorem undo_of_top (e : TableEditor) (below : List Snapshot) (top : Snapshot)
    (h : e.undoStack = below ++ [top]) :
    e.undo.data = top.grid ∧ e.undo.undoStack = below := by
  simp [TableEditor.undo, h, JSON_parse]

theorem foldl_onInput_stacks (inputs : List (Nat × Nat × Str)) (e : TableEditor) :
    (inputs.foldl (fun st i => st.onInput i.1 i.2.1 i.2.2) e).undoStack = e.undoStack ∧
    (inputs.foldl (fun st i => st.onInput i.1 i.2.1 i.2.2) e).redoStack = e.redoStack := by
  induction inputs generalizing e with
  | nil => simp
  | cons i rest ih =>
    simp only [List.foldl_cons]
    have := ih (e.onInput i.1 i.2.1 i.2.2)
    simpa [TableEditor.onInput] using this

theorem applyStep_undoStack (e : TableEditor) (s : EditStep) :
    (applyStep e s).undoStack = e.undoStack ++ [JSON_stringify e.data] := by
  cases s with
  | cellEdits inputs =>
    rw [applyStep, (foldl_onInput_stacks inputs e.onFocus).1]
    rfl
  | insertRow => simp [applyStep, TableEditor.insertRow, TableEditor.snapshot]
  | insertColumn => simp [applyStep, TableEditor.insertColumn, TableEditor.snapshot]

theorem undoTimes_applySteps (steps : List EditStep) (e : TableEditor) :
    (undoTimes steps.length (applySteps e steps)).data = e.data ∧
    (undoTimes steps.length (applySteps e steps)).undoStack = e.undoStack := by
  induction steps generalizing e with
  | nil => simp [undoTimes, applySteps]
  | cons s rest ih =>
    have h := ih (applyStep e s)
    have hstep : undoTimes (s :: rest).length (applySteps e (s :: rest)) =
        (undoTimes rest.length (applySteps (applyStep e s) rest)).undo := by
      simp only [undoTimes, applySteps, List.length_cons, List.foldl_cons]
      exact Function.iterate_succ_apply' _ _ _
    rw [hstep]
    have hu := undo_of_top (undoTimes rest.length (applySteps (applyStep e s) rest))
      e.undoStack (JSON_stringify e.data) (by rw [h.2, applyStep_undoStack])
    simpa [JSON_stringify] using hu

/-! ## History and editing actions: the claims -/

/-- C4. After any sequence of edit steps (each one a snapshot followed by cell inputs, an
`insertRow` or an `insertColumn`), calling `undo` once per step brings back the grid (and
the undo stack) from before the sequence; cell inputs never change a stored snapshot; a
`snapshot` directly followed by `undo` restores the grid; and snapshot, inputs, snapshot,
inputs, `undo`, `undo` returns to the first grid. -/
theorem undo_k_fold (e : TableEditor) (steps : List EditStep) :
    (undoTimes steps.length (applySteps e steps)).data = e.data ∧
    (undoTimes steps.length (applySteps e steps)).undoStack = e.undoStack ∧
    (∀ inputs : List (Nat × Nat × Str),
      (inputs.foldl (fun st i => st.onInput i.1 i.2.1 i.2.2) e).undoStack = e.undoStack ∧
      (inputs.foldl (fun st i => st.onInput i.1 i.2.1 i.2.2) e).redoStack = e.redoStack) ∧
    e.snapshot.undo.data = e.data ∧
    (∀ inputs1 inputs2 : List (Nat × Nat × Str),
      (((inputs2.foldl (fun st i => st.onInput i.1 i.2.1 i.2.2)
          (inputs1.foldl (fun st i => st.onInput i.1 i.2.1 i.2.2)
            e.snapshot).snapshot).undo).undo).data = e.data) := by
  refine ⟨(undoTimes_applySteps steps e).1, (undoTimes_applySteps steps e).2,
    fun inputs => foldl_onInput_stacks inputs e, ?_, ?_⟩
  · exact (undoTimes_applySteps [EditStep.cellEdits []] e).1
  · intro inputs1 inputs2
    exact (undoTimes_applySteps [EditStep.cellEdits inputs1, EditStep.cellEdits inputs2] e).1

/-- C5. On a state with a non-empty undo stack, `undo` followed by `redo` gives back the
same grid, the same undo stack and the same redo stack; only the modified flag is set. -/
theorem redo_after_undo (e : TableEditor) (h : e.undoStack ≠ []) :
    e.undo.redo.data = e.data ∧ e.undo.redo.undoStack = e.undoStack ∧
    e.undo.redo.redoStack = e.redoStack ∧ e.undo.redo.modified = true ∧
    e.undo.redo = { e with modified := true } := by
  obtain ⟨below, top, hs⟩ : ∃ below top, e.undoStack = below ++ [top] :=
    ⟨e.undoStack.dropLast, e.undoStack.getLast h, (List.dropLast_concat_getLast h).symm⟩
  simp [TableEditor.undo, TableEditor.redo, hs, JSON_parse, JSON_stringify]

/-- Witness of C5 on an editor holding the grid `[["b"]]` with one stored snapshot. -/
theorem redo_after_undo_witness :
    (({ filePath := [], delimiter := ',', modified := false, hasHeader := false,
        undoStack := [⟨[[['a']]]⟩], redoStack := [], data := [[['b']]],
        isLarge := false } : TableEditor).undo.redo.data = [[['b']]]) :=
  (redo_after_undo _ (by decide)).1

/-- C6. On every grid the editor can hold (each row has at least one cell, as `loadFile`,
`insertRow`, `insertColumn` and cell inputs guarantee), `insertRow` appends exactly one row
after the existing rows, which stay as they are and in order; every cell of the new row is
the empty string; the new row is as long as the first existing row, and has one cell when
the grid has no rows. -/
theorem insertRow_appends (e : TableEditor) (hrows : ∀ row ∈ e.data, row ≠ []) :
    ∃ newRow : List Str,
      e.insertRow.data = e.data ++ [newRow] ∧
      (∀ cell ∈ newRow, cell = []) ∧
      (∀ first : List Str, e.data.head? = some first → newRow.length = first.length) ∧
      (e.data = [] → newRow.length = 1) := by
  refine ⟨List.replicate (TableEditor.insertRowCols e.data) [], rfl, ?_, ?_, ?_⟩
  · intro cell hcell
    exact (List.mem_replicate.mp hcell).2
  · intro first hfirst
    have hmem : first ∈ e.data := List.mem_of_mem_head? hfirst
    have hne : first.length ≠ 0 := fun h => hrows first hmem (List.length_eq_zero.mp h)
    simp [TableEditor.insertRowCols, hfirst, hne]
  · intro hnil
    simp [TableEditor.insertRowCols, hnil]

/-- Witness of C6: on a grid whose rows have three cells the appended row is
`["", "", ""]`. -/
theorem insertRow_appends_witness :
    ({ filePath := [], delimiter := ',', modified := false, hasHeader := false,
       undoStack := [], redoStack := [],
       data := [[['a'], ['b'], ['c']], [['d'], ['e'], ['f']]],
       isLarge := false } : TableEditor).insertRow.data =
      [[['a'], ['b'], ['c']], [['d'], ['e'], ['f']], [[], [], []]] := by
  obtain ⟨newRow, hdata, hcells, hlen, -⟩ := insertRow_appends
    { filePath := [], delimiter := ',', modified := false, hasHeader := false,
      undoStack := [], redoStack := [],
      data := [[['a'], ['b'], ['c']], [['d'], ['e'], ['f']]], isLarge := false }
    (by decide)
  have h3 : newRow.length = 3 := hlen [['a'], ['b'], ['c']] rfl
  have hrow : newRow = [[], [], []] := by
    match newRow, h3, hcells with
    | [x, y, z], _, hc =>
      have hx := hc x (by simp)
      have hy := hc y (by simp)
      have hz := hc z (by simp)
      subst hx hy hz
      rfl
  rw [hdata, hrow]
  rfl

/-- C7. `insertColumn` keeps the number of rows, and each row of the new grid is the row at
the same index of the old grid followed by one empty-string cell. -/
theorem insertColumn_appends_cell (e : TableEditor) :
    e.insertColumn.data.length = e.data.length ∧
    ∀ (i : Nat) (row : List Str), e.data[i]? = some row →
      e.insertColumn.data[i]? = some (row ++ [[]]) := by
  refine ⟨by simp [TableEditor.insertColumn, TableEditor.snapshot], ?_⟩
  intro i row hrow
  simp [TableEditor.insertColumn, TableEditor.snapshot, hrow]

/-- Witness of C7 on the ragged grid `[["a"], ["b", "c"]]`: the second row becomes
`["b", "c", ""]` and the grid keeps its two rows. -/
theorem insertColumn_appends_cell_witness :
    ({ filePath := [], delimiter := ',', modified := false, hasHeader := false,
       undoStack := [], redoStack := [], data := [[['a']], [['b'], ['c']]],
       isLarge := false } : TableEditor).insertColumn.data[1]? = some [['b'], ['c'], []] :=
  (insertColumn_appends_cell _).2 1 [['b'], ['c']] rfl

/-- C8. `snapshot` puts a copy of the current grid on top of the undo stack, keeps the
entries below, keeps the current grid and empties the redo stack; a `redo` directly after a
`snapshot` changes nothing. -/
theorem snapshot_discards_redo (e : TableEditor) :
    e.snapshot.undoStack.dropLast = e.undoStack ∧
    (e.snapshot.undoStack.getLast?).map JSON_parse = some e.data ∧
    e.snapshot.data = e.data ∧
    e.snapshot.redoStack = [] ∧
    e.snapshot.redo = e.snapshot ∧
    e.snapshot.redo.data = e.data := by
  simp [TableEditor.snapshot, TableEditor.redo, JSON_parse, JSON_stringify]

/-- C9. `undo` on an empty undo stack and `redo` on an empty redo stack return the state
they were given, all fields included. -/
theorem empty_stack_noop (e : TableEditor) :
    (e.undoStack = [] → e.undo = e) ∧ (e.redoStack = [] → e.redo = e) := by
  constructor
  · intro h
    simp [TableEditor.undo, h]
  · intro h
    simp [TableEditor.redo, h]

/-- Witness of C9 on a freshly loaded editor, whose two stacks are empty. -/
theorem empty_stack_noop_witness :
    (TableEditor.new ['x', '.', 'c', 's', 'v'] 3 ['a', ',', 'b']).undo =
      TableEditor.new ['x', '.', 'c', 's', 'v'] 3 ['a', ',', 'b'] ∧
    (TableEditor.new ['x', '.', 'c', 's', 'v'] 3 ['a', ',', 'b']).redo =
      TableEditor.new ['x', '.', 'c', 's', 'v'] 3 ['a', ',', 'b'] :=
  ⟨(empty_stack_noop _).1 (by decide), (empty_stack_noop _).2 (by decide)⟩

/-- C10, the failing input.  The opener accepts the URI `data.TSV` (its lower-cased extension
is `.tsv`) and the editor it constructs has the comma as its delimiter, so a tab-separated
line is loaded as one cell. -/
theorem opener_upper_case_tsv (size : Nat) (text : Str) :
    toLowerCase (extname ['d', 'a', 't', 'a', '.', 'T', 'S', 'V']) = ['.', 't', 's', 'v'] ∧
    openerAccepts ['d', 'a', 't', 'a', '.', 'T', 'S', 'V'] = true ∧
    (opener ['d', 'a', 't', 'a', '.', 'T', 'S', 'V'] size text).map TableEditor.delimiter =
      some ',' ∧
    (opener ['d', 'a', 't', 'a', '.', 'T', 'S', 'V'] 3 ['a', '\t', 'b']).map TableEditor.data =
      some [[['a', '\t', 'b']]] := by
  refine ⟨by decide, by decide, ?_, by decide⟩
  have h : openerAccepts ['d', 'a', 't', 'a', '.', 'T', 'S', 'V'] = true := by decide
  simp only [opener, h, if_true, Option.map_some']
  unfold TableEditor.new
  by_cases hs : size > MAX_FILE_SIZE
  · simp only [hs, if_true]
    decide
  · simp only [hs, if_false, TableEditor.loadFile]
    decide

end BasicCsv
